import Mathlib

/-!
Shallow embedding of scripts/strip-chinese.py.

Strings are modelled as lists of characters (List Char); a file is a list of
lines (for the markdown processor, each line keeping its trailing newline as
produced by readlines) or a single character list (for the code processor).

Regex operations are translated operationally:
  - re.sub(r'[一-鿿]+', '', line)   : deleting every maximal run of
    CJK characters equals deleting every CJK character, i.e. a filter;
  - line.replace(p, '') for each p in the punctuation string: a filter per
    single character, applied sequentially (a left fold);
  - re.sub(r'\s+/\s*$', '', line) : the '/' of a match must be the last
    non-whitespace character and the leftmost match starts at the beginning of
    the maximal whitespace run before it, so the substitution removes the
    trailing run [ws+ '/' ws*] when present;
  - re.sub(r'\s+-\s+$', '', line) : same with '-' and a nonempty trailing run;
  - re.sub(r'\(\s*\)', '', line) : a left-to-right scan replacing each
    non-overlapping occurrence of open ++ ws* ++ close, continuing after the
    match, without rescanning the produced text;
  - re.sub(r'//.*$', f, content, flags=re.MULTILINE) : per physical line, the
    match runs from the first occurrence of "//" to the end of that line;
  - re.sub(r'/\*.*?\*/', f, content, flags=re.DOTALL) : from the leftmost
    "/\x2a" to the nearest following "\x2a/", repeatedly on the remainder.
-/

namespace StripChinese

/-- Characters of the CJK Unified Ideographs range used by the script
(re.search(r'[一-鿿]', ...)). -/
def isChineseChar (c : Char) : Bool :=
  0x4e00 ≤ c.toNat && c.toNat ≤ 0x9fff

/-- re.search(r'[a-zA-Z]', ...) on a single character. -/
def isLatinLetter (c : Char) : Bool :=
  (0x61 ≤ c.toNat && c.toNat ≤ 0x7a) || (0x41 ≤ c.toNat && c.toNat ≤ 0x5a)

/-- Python whitespace, as recognised by str.strip() / str.isspace() / re \s. -/
def isPySpace (c : Char) : Bool :=
  let n := c.toNat
  (9 ≤ n && n ≤ 13) || n == 32 || (28 ≤ n && n ≤ 31) || n == 0x85 ||
  n == 0xa0 || n == 0x1680 || (0x2000 ≤ n && n ≤ 0x200a) || n == 0x2028 ||
  n == 0x2029 || n == 0x202f || n == 0x205f || n == 0x3000

/-- has_chinese(text): any character in the CJK range. -/
def has_chinese (s : List Char) : Bool := s.any isChineseChar

/-- re.search(r'[a-zA-Z]', line) as a boolean. -/
def hasLatin (s : List Char) : Bool := s.any isLatinLetter

/-- The literal value of chinese_punct in the source.  The bytes of the Python
literal parse as two adjacent string literals, so the set contains the ASCII
double quote (twice) and no single-quote character. -/
def chinese_punct : List Char :=
  ['，', '。', '；', '：', '？', '！', '（', '）', '【', '】', '《', '》',
   '\x22', '\x22', '、']

/-- Step 1 of remove_chinese_line: re.sub(r'[一-鿿]+', '', line). -/
def removeChineseChars (s : List Char) : List Char :=
  s.filter (fun c => !isChineseChar c)

/-- Sequential single-character deletions: each p of ps is removed from the
accumulated line in turn (line.replace(p, '') for a one-character p). -/
def punctFold (ps : List Char) (l : List Char) : List Char :=
  ps.foldl (fun acc p => acc.filter (fun c => c != p)) l

/-- Step 2: for punct in chinese_punct: line = line.replace(punct, ''). -/
def removePunct (s : List Char) : List Char :=
  punctFold chinese_punct s

/-- line.lstrip(): drop leading Python whitespace. -/
def lstrip (s : List Char) : List Char := s.dropWhile isPySpace

/-- line.rstrip(): drop trailing Python whitespace. -/
def rstrip (s : List Char) : List Char := (s.reverse.dropWhile isPySpace).reverse

/-- line.strip(). -/
def pyStrip (s : List Char) : List Char := rstrip (lstrip s)

/-- Step 3: re.sub(r'\s+/\s*$', '', line).  The slash of a match is the last
non-whitespace character; the leftmost match starts at the maximal whitespace
run before it and must be preceded by at least one whitespace character. -/
def stripSlashSep (s : List Char) : List Char :=
  match s.reverse.dropWhile isPySpace with
  | '/' :: r2 =>
    if (r2.takeWhile isPySpace).isEmpty then s
    else (r2.dropWhile isPySpace).reverse
  | _ => s

/-- Step 4: re.sub(r'\s+-\s+$', '', line): as step 3 but the trailing
whitespace run after the hyphen must be nonempty. -/
def stripDashSep (s : List Char) : List Char :=
  if (s.reverse.takeWhile isPySpace).isEmpty then s
  else
    match s.reverse.dropWhile isPySpace with
    | '-' :: r2 =>
      if (r2.takeWhile isPySpace).isEmpty then s
      else (r2.dropWhile isPySpace).reverse
    | _ => s

/-- Left-to-right scan of re.sub(r'\(\s*\)', '', ...) (and the bracket
variant): the state records, after an open marker, the whitespace characters
read so far; a close marker drops the whole pending match, any other
character flushes the pending text.  Scanning resumes after a replaced match
and never rescans produced text, exactly as re.sub does. -/
def repGo (o cl : Char) : List Char → Option (List Char) → List Char
  | [], none => []
  | [], some ws => o :: ws
  | x :: rest, none =>
    if x = o then repGo o cl rest (some [])
    else x :: repGo o cl rest none
  | x :: rest, some ws =>
    if x = cl then repGo o cl rest none
    else if isPySpace x then repGo o cl rest (some (ws ++ [x]))
    else if x = o then o :: ws ++ repGo o cl rest (some [])
    else o :: ws ++ x :: repGo o cl rest none

/-- Steps 5 and 6: removal of every (non-overlapping, left-to-right) empty
pair open ++ whitespace* ++ close. -/
def removeEmptyPairs (o cl : Char) (s : List Char) : List Char :=
  repGo o cl s none

/-- remove_chinese_line, composed exactly in the source's order. -/
def remove_chinese_line (s : List Char) : List Char :=
  pyStrip (removeEmptyPairs '[' ']'
    (removeEmptyPairs '(' ')'
      (stripDashSep (stripSlashSep (removePunct (removeChineseChars s))))))

/-- Python truthiness-and-isspace test: cleaned and cleaned.isspace(). -/
def pyIsSpaceStr (s : List Char) : Bool := !s.isEmpty && s.all isPySpace

/-- The body of the markdown loop for one line: drop pure-Chinese lines,
clean mixed lines (keeping the result, newline-terminated, only when nonempty
and not all-whitespace), keep other lines verbatim. -/
def classifyLine (l : List Char) : List (List Char) :=
  if has_chinese l && !hasLatin l then []
  else if has_chinese l then
    let c := remove_chinese_line l
    if !c.isEmpty && !pyIsSpaceStr c then [c ++ ['\n']] else []
  else [l]

/-- The classification loop of process_markdown_file with its skip_next flag:
a true flag consumes one line and resets to false; no branch ever sets it. -/
def phase1Skip : Bool → List (List Char) → List (List Char)
  | _, [] => []
  | true, _ :: rest => phase1Skip false rest
  | false, l :: rest => classifyLine l ++ phase1Skip false rest

/-- The same loop with the skip_next mechanism removed. -/
def phase1 : List (List Char) → List (List Char)
  | [] => []
  | l :: rest => classifyLine l ++ phase1 rest

/-- is_empty = not line.strip(). -/
def isEmptyLine (l : List Char) : Bool := (pyStrip l).isEmpty

/-- The blank-collapsing loop, carrying prev_empty; a skipped line leaves
prev_empty untouched (it is true in that branch). -/
def collapseGo : Bool → List (List Char) → List (List Char)
  | _, [] => []
  | prev, l :: rest =>
    if isEmptyLine l && prev then collapseGo prev rest
    else l :: collapseGo (isEmptyLine l) rest

/-- The final blank-line collapse of process_markdown_file. -/
def collapseBlanks (ls : List (List Char)) : List (List Char) :=
  collapseGo false ls

/-- The pure core of process_markdown_file: classification loop (with the
skip flag, initially False) followed by the blank-line collapse. -/
def process_markdown_file (ls : List (List Char)) : List (List Char) :=
  collapseBlanks (phase1Skip false ls)

/-- replace_comment: the replacement function of the single-line-comment
substitution; it receives the whole matched text (marker included). -/
def replace_comment (m : List Char) : List Char :=
  if has_chinese m then
    let c := remove_chinese_line m
    if c.isEmpty then ['/', '/'] else '/' :: '/' :: c
  else m

/-- Locate the first "//" of a line: returns the text before it and the
matched text (from the marker to the end of the line). -/
def findLineComment : List Char → Option (List Char × List Char)
  | [] => none
  | x :: rest =>
    if x = '/' ∧ rest.head? = some '/' then some ([], x :: rest)
    else (findLineComment rest).map (fun p => (x :: p.1, p.2))

/-- One line of the MULTILINE single-line-comment pass. -/
def lineStep (l : List Char) : List Char :=
  match findLineComment l with
  | none => l
  | some (b, m) => b ++ replace_comment m

/-- content.split(chr(10)) on character lists. -/
def splitLines : List Char → List (List Char)
  | [] => [[]]
  | c :: rest =>
    match splitLines rest with
    | [] => [[c]]
    | l :: ls => if c = '\n' then [] :: l :: ls else (c :: l) :: ls

/-- chr(10).join on character lists. -/
def joinLines : List (List Char) → List Char
  | [] => []
  | [l] => l
  | l :: ls => l ++ '\n' :: joinLines ls

/-- re.sub(r'//.*$', replace_comment, content, flags=re.MULTILINE). -/
def lineCommentPass (s : List Char) : List Char :=
  joinLines ((splitLines s).map lineStep)

/-- The characters of the content lying outside every single-line-comment
match (per line, the part before the first "//"). -/
def outsideLine (s : List Char) : List Char :=
  joinLines ((splitLines s).map (fun l =>
    match findLineComment l with
    | none => l
    | some (b, _) => b))

/-- Split at the first occurrence of the two-character pattern a, b:
returns the text before it and the text after the two characters. -/
def splitFirst2 (a b : Char) : List Char → Option (List Char × List Char)
  | [] => none
  | x :: rest =>
    if x = a ∧ rest.head? = some b then some ([], rest.tail)
    else (splitFirst2 a b rest).map (fun p => (x :: p.1, p.2))

/-- The Python test "ab in line" for the two-character marker a, b. -/
def hasPair (a b : Char) (l : List Char) : Bool := (splitFirst2 a b l).isSome

/-- One line of replace_multiline_comment: marker lines are kept verbatim,
Chinese lines are cleaned (dropped when the cleaning is empty, re-prefixed
with one space when the stripped original starts with an asterisk), other
lines kept verbatim. -/
def blockLine (l : List Char) : Option (List Char) :=
  if hasPair '/' '*' l || hasPair '*' '/' l then some l
  else if has_chinese l then
    let c := remove_chinese_line l
    if c.isEmpty then none
    else if (pyStrip l).head? = some '*' then some (' ' :: c)
    else some c
  else some l

/-- replace_multiline_comment: the replacement function of the block-comment
substitution, applied to the whole matched span. -/
def replace_multiline_comment (m : List Char) : List Char :=
  if has_chinese m then joinLines ((splitLines m).filterMap blockLine)
  else m

/-- re.sub(r'/\*.*?\*/', replace_multiline_comment, content, flags=re.DOTALL),
with explicit fuel to keep the recursion structural; each match consumes at
least four characters, so fuel equal to the content length never runs out. -/
def blockPassFuel : Nat → List Char → List Char
  | 0, s => s
  | fuel + 1, s =>
    match splitFirst2 '/' '*' s with
    | none => s
    | some (bef, rest) =>
      match splitFirst2 '*' '/' rest with
      | none => s
      | some (inner, after) =>
        bef ++ replace_multiline_comment ('/' :: '*' :: (inner ++ ['*', '/']))
          ++ blockPassFuel fuel after

/-- The block-comment pass. -/
def blockCommentPass (s : List Char) : List Char := blockPassFuel s.length s

/-- The pure core of process_code_file: single-line pass then block pass. -/
def process_code_file (s : List Char) : List Char :=
  blockCommentPass (lineCommentPass s)

/-- The characters of a content lying outside every block-comment match. -/
def outsideBlockFuel : Nat → List Char → List Char
  | 0, s => s
  | fuel + 1, s =>
    match splitFirst2 '/' '*' s with
    | none => s
    | some (bef, rest) =>
      match splitFirst2 '*' '/' rest with
      | none => s
      | some (_, after) => bef ++ outsideBlockFuel fuel after

/-! Generic helpers about whitespace trimming, filtering and sublists. -/

lemma all_of_sublist {p : Char → Bool} {l₁ l₂ : List Char} (h : List.Sublist l₁ l₂)
    (h2 : l₂.all p = true) : l₁.all p = true := by
  simp only [List.all_eq_true] at h2 ⊢
  exact fun x hx => h2 x (h.subset hx)

lemma head_not_of_dropWhile {p : Char → Bool} {l : List Char} {c : Char}
    (h : (l.dropWhile p).head? = some c) : p c = false := by
  have hh := List.head?_dropWhile_not p l
  rw [h] at hh
  exact hh

lemma dropWhile_of_head_not {p : Char → Bool} {l : List Char}
    (h : ∀ c, l.head? = some c → p c = false) : l.dropWhile p = l := by
  cases l with
  | nil => rfl
  | cons a t =>
    rw [List.dropWhile_cons_of_neg]
    simp [h a rfl]

lemma dropWhile_idem (p : Char → Bool) (l : List Char) :
    (l.dropWhile p).dropWhile p = l.dropWhile p :=
  dropWhile_of_head_not (fun _ hc => head_not_of_dropWhile hc)

lemma takeWhile_of_dropWhile_nil (p : Char → Bool) (l : List Char) :
    (l.dropWhile p).takeWhile p = [] := by
  cases h : l.dropWhile p with
  | nil => rfl
  | cons a t =>
    have ha : p a = false := head_not_of_dropWhile (by rw [h]; rfl)
    rw [List.takeWhile_cons_of_neg]
    simp [ha]

lemma all_dropWhile_nil {p : Char → Bool} {l : List Char} (h : l.all p = true) :
    l.dropWhile p = [] := by
  induction l with
  | nil => rfl
  | cons a t ih =>
    simp only [List.all_cons, Bool.and_eq_true] at h
    rw [List.dropWhile_cons_of_pos h.1]
    exact ih h.2

lemma lstrip_sublist (s : List Char) : List.Sublist (lstrip s) s :=
  List.dropWhile_sublist isPySpace

lemma rstrip_sublist (s : List Char) : List.Sublist (rstrip s) s := by
  have h := (List.dropWhile_sublist (l := s.reverse) isPySpace).reverse
  rw [List.reverse_reverse] at h
  exact h

lemma pyStrip_sublist (s : List Char) : List.Sublist (pyStrip s) s :=
  (rstrip_sublist (lstrip s)).trans (lstrip_sublist s)

lemma rstrip_decomp (s : List Char) :
    s = rstrip s ++ (s.reverse.takeWhile isPySpace).reverse := by
  have h : s.reverse.takeWhile isPySpace ++ s.reverse.dropWhile isPySpace = s.reverse :=
    List.takeWhile_append_dropWhile isPySpace s.reverse
  have h2 := congrArg List.reverse h
  rw [List.reverse_reverse, List.reverse_append] at h2
  exact h2.symm

lemma lstrip_decomp (s : List Char) :
    s = s.takeWhile isPySpace ++ lstrip s :=
  (List.takeWhile_append_dropWhile isPySpace s).symm

lemma all_reverse_of_all {p : Char → Bool} {l : List Char}
    (h : l.all p = true) : l.reverse.all p = true := by
  simp only [List.all_eq_true, List.mem_reverse] at h ⊢
  exact h

lemma rstrip_rstrip (s : List Char) : rstrip (rstrip s) = rstrip s := by
  unfold rstrip
  rw [List.reverse_reverse, dropWhile_idem]

lemma head?_of_rstrip {s : List Char} {c : Char}
    (h : (rstrip s).head? = some c) : s.head? = some c := by
  rw [rstrip_decomp s, List.head?_append, h]
  rfl

lemma pyStrip_head_not {s : List Char} {c : Char}
    (h : (pyStrip s).head? = some c) : isPySpace c = false :=
  head_not_of_dropWhile (head?_of_rstrip h)

lemma lstrip_pyStrip (s : List Char) : lstrip (pyStrip s) = pyStrip s :=
  dropWhile_of_head_not (fun _ hc => pyStrip_head_not hc)

lemma rstrip_pyStrip (s : List Char) : rstrip (pyStrip s) = pyStrip s :=
  rstrip_rstrip (lstrip s)

lemma pyStrip_pyStrip (s : List Char) : pyStrip (pyStrip s) = pyStrip s := by
  unfold pyStrip
  rw [show lstrip (rstrip (lstrip s)) = rstrip (lstrip s) from lstrip_pyStrip s]
  exact rstrip_rstrip (lstrip s)

lemma rstrip_eq_nil_iff {s : List Char} :
    rstrip s = [] ↔ s.all isPySpace = true := by
  constructor
  · intro h
    have hd := rstrip_decomp s
    rw [h, List.nil_append] at hd
    rw [hd]
    exact all_reverse_of_all List.all_takeWhile
  · intro h
    unfold rstrip
    rw [all_dropWhile_nil (all_reverse_of_all h)]
    rfl

/-! Decompositions of the trailing-separator steps: either the step is the
identity, or the whole string is the result followed by the removed match
(a nonempty whitespace run, the separator, then whitespace). -/

lemma stripSlashSep_cases (s : List Char) :
    stripSlashSep s = s ∨ ∃ w1 w2, s = stripSlashSep s ++ (w1 ++ '/' :: w2) ∧
      w1 ≠ [] ∧ w1.all isPySpace = true ∧ w2.all isPySpace = true := by
  unfold stripSlashSep
  split
  next r2 heq =>
    by_cases hw : (r2.takeWhile isPySpace).isEmpty
    · rw [if_pos hw]; exact Or.inl rfl
    · rw [if_neg hw]
      right
      refine ⟨(r2.takeWhile isPySpace).reverse, (s.reverse.takeWhile isPySpace).reverse,
        ?_, ?_, all_reverse_of_all List.all_takeWhile, all_reverse_of_all List.all_takeWhile⟩
      · have h1 : s.reverse.takeWhile isPySpace ++ ('/' :: r2) = s.reverse := by
          rw [← heq]; exact List.takeWhile_append_dropWhile isPySpace s.reverse
        have h2 : r2.takeWhile isPySpace ++ r2.dropWhile isPySpace = r2 :=
          List.takeWhile_append_dropWhile isPySpace r2
        have h3 := congrArg List.reverse h1
        rw [List.reverse_reverse, List.reverse_append] at h3
        have h4 := congrArg List.reverse h2
        rw [List.reverse_append] at h4
        conv_lhs => rw [← h3]
        rw [List.reverse_cons, ← h4]
        simp [List.append_assoc]
      · simp only [ne_eq, List.reverse_eq_nil_iff]
        simpa [List.isEmpty_iff] using hw
  next =>
    exact Or.inl rfl

lemma stripDashSep_cases (s : List Char) :
    stripDashSep s = s ∨ ∃ w1 w2, s = stripDashSep s ++ (w1 ++ '-' :: w2) ∧
      w1 ≠ [] ∧ w1.all isPySpace = true ∧ w2.all isPySpace = true := by
  unfold stripDashSep
  by_cases h0 : (s.reverse.takeWhile isPySpace).isEmpty
  · rw [if_pos h0]; exact Or.inl rfl
  · rw [if_neg h0]
    split
    next r2 heq =>
      by_cases hw : (r2.takeWhile isPySpace).isEmpty
      · rw [if_pos hw]; exact Or.inl rfl
      · rw [if_neg hw]
        right
        refine ⟨(r2.takeWhile isPySpace).reverse, (s.reverse.takeWhile isPySpace).reverse,
          ?_, ?_, all_reverse_of_all List.all_takeWhile, all_reverse_of_all List.all_takeWhile⟩
        · have h1 : s.reverse.takeWhile isPySpace ++ ('-' :: r2) = s.reverse := by
            rw [← heq]; exact List.takeWhile_append_dropWhile isPySpace s.reverse
          have h2 : r2.takeWhile isPySpace ++ r2.dropWhile isPySpace = r2 :=
            List.takeWhile_append_dropWhile isPySpace r2
          have h3 := congrArg List.reverse h1
          rw [List.reverse_reverse, List.reverse_append] at h3
          have h4 := congrArg List.reverse h2
          rw [List.reverse_append] at h4
          conv_lhs => rw [← h3]
          rw [List.reverse_cons, ← h4]
          simp [List.append_assoc]
        · simp only [ne_eq, List.reverse_eq_nil_iff]
          simpa [List.isEmpty_iff] using hw
    next =>
      exact Or.inl rfl

lemma stripSlashSep_sublist (s : List Char) : List.Sublist (stripSlashSep s) s := by
  rcases stripSlashSep_cases s with h | ⟨w1, w2, h, -, -, -⟩
  · rw [h]
  · conv_rhs => rw [h]
    exact List.sublist_append_left _ _

lemma stripDashSep_sublist (s : List Char) : List.Sublist (stripDashSep s) s := by
  rcases stripDashSep_cases s with h | ⟨w1, w2, h, -, -, -⟩
  · rw [h]
  · conv_rhs => rw [h]
    exact List.sublist_append_left _ _

/-! Lemmas about the empty-pair scan. -/

/-- The text a pending state stands for. -/
def pendChars (o : Char) : Option (List Char) → List Char
  | none => []
  | some ws => o :: ws

lemma repGo_sublist (o cl : Char) (s : List Char) :
    ∀ st, List.Sublist (repGo o cl s st) (pendChars o st ++ s) := by
  induction s with
  | nil =>
    intro st
    cases st <;> simp [repGo, pendChars]
  | cons x rest ih =>
    intro st
    cases st with
    | none =>
      by_cases hx : x = o
      · subst hx
        simp only [repGo, if_pos rfl, pendChars, List.nil_append]
        have h := ih (some [])
        simp only [pendChars] at h
        exact h
      · simp only [repGo, if_neg hx, pendChars, List.nil_append]
        exact (ih none).cons₂ x
    | some ws =>
      by_cases hcl : x = cl
      · subst hcl
        simp only [repGo, if_pos rfl, pendChars]
        have h := ih none
        simp only [pendChars, List.nil_append] at h
        exact (h.trans (List.sublist_cons_self x rest)).trans
          (List.sublist_append_right (o :: ws) (x :: rest))
      · by_cases hws : isPySpace x
        · simp only [repGo, if_neg hcl, if_pos hws, pendChars]
          have h := ih (some (ws ++ [x]))
          simp only [pendChars] at h
          have he : o :: (ws ++ [x]) ++ rest = (o :: ws) ++ x :: rest := by
            simp
          exact he ▸ h
        · by_cases hx : x = o
          · subst hx
            simp only [repGo, if_neg hcl, if_neg hws, if_pos rfl, pendChars]
            have h := ih (some [])
            simp only [pendChars] at h
            have h2 := List.Sublist.append_left h ws
            exact List.Sublist.cons₂ x (by simpa using h2)
          · simp only [repGo, if_neg hcl, if_neg hws, if_neg hx, pendChars]
            have h2 := List.Sublist.append_left ((ih none).cons₂ x) ws
            simp only [pendChars, List.nil_append] at h2
            exact List.Sublist.cons₂ o h2

lemma removeEmptyPairs_sublist (o cl : Char) (s : List Char) :
    List.Sublist (removeEmptyPairs o cl s) s :=
  repGo_sublist o cl s none

/-- Characters that are not the open marker pass through the scan. -/
lemma repGo_skip (o cl : Char) (rest : List Char) :
    ∀ p : List Char, (∀ x ∈ p, x ≠ o) →
      repGo o cl (p ++ rest) none = p ++ repGo o cl rest none := by
  intro p
  induction p with
  | nil => intro _; rfl
  | cons a t ih =>
    intro h
    have ha : a ≠ o := h a (List.mem_cons_self a t)
    simp only [List.cons_append, repGo, if_neg ha]
    exact congrArg (a :: ·) (ih (fun x hx => h x (List.mem_cons_of_mem a hx)))

/-! Lemmas about the sequential single-character deletions. -/

lemma punctFold_mem (ps : List Char) :
    ∀ (l : List Char) (x : Char),
      x ∈ punctFold ps l ↔ x ∈ l ∧ ∀ p ∈ ps, x ≠ p := by
  induction ps with
  | nil => intro l x; simp [punctFold]
  | cons q qs ih =>
    intro l x
    simp only [punctFold, List.foldl_cons] at ih ⊢
    rw [ih]
    simp only [List.mem_filter, bne_iff_ne, ne_eq, List.mem_cons]
    constructor
    · rintro ⟨⟨hl, hq⟩, hqs⟩
      exact ⟨hl, by rintro p (rfl | hp); exact hq; exact hqs p hp⟩
    · rintro ⟨hl, hall⟩
      exact ⟨⟨hl, hall q (Or.inl rfl)⟩, fun p hp => hall p (Or.inr hp)⟩

lemma punctFold_sublist (ps : List Char) :
    ∀ l : List Char, List.Sublist (punctFold ps l) l := by
  induction ps with
  | nil => intro l; simp [punctFold]
  | cons q qs ih =>
    intro l
    simp only [punctFold, List.foldl_cons] at ih ⊢
    exact (ih _).trans (List.filter_sublist l)

lemma punctFold_append_keep (ps : List Char) :
    ∀ (pre l : List Char), (∀ x ∈ pre, ∀ p ∈ ps, x ≠ p) →
      punctFold ps (pre ++ l) = pre ++ punctFold ps l := by
  induction ps with
  | nil => intro pre l _; rfl
  | cons q qs ih =>
    intro pre l h
    simp only [punctFold, List.foldl_cons] at ih ⊢
    rw [List.filter_append]
    rw [List.filter_eq_self.2 (fun a ha => by
      simpa [bne_iff_ne] using h a ha q (List.mem_cons_self q qs))]
    exact ih pre _ (fun x hx p hp => h x hx p (List.mem_cons_of_mem q hp))

lemma punctFold_nil (ps : List Char) : punctFold ps [] = [] := by
  induction ps with
  | nil => rfl
  | cons q qs ih =>
    simp only [punctFold, List.foldl_cons, List.filter_nil] at ih ⊢
    exact ih

lemma punctFold_eq_self (ps : List Char) :
    ∀ l : List Char, (∀ x ∈ l, ∀ p ∈ ps, x ≠ p) → punctFold ps l = l := by
  intro l h
  have h2 := punctFold_append_keep ps l [] h
  rw [List.append_nil] at h2
  rw [h2, punctFold_nil, List.append_nil]

/-! Sublist facts for the whole Cleaner. -/

lemma clean_sublist_stages (s : List Char) :
    List.Sublist (remove_chinese_line s)
      (removePunct (removeChineseChars s)) := by
  unfold remove_chinese_line
  refine (pyStrip_sublist _).trans ?_
  refine (removeEmptyPairs_sublist '[' ']' _).trans ?_
  refine (removeEmptyPairs_sublist '(' ')' _).trans ?_
  exact (stripDashSep_sublist _).trans (stripSlashSep_sublist _)

lemma removePunct_sublist (s : List Char) :
    List.Sublist (removePunct s) s :=
  punctFold_sublist chinese_punct s

lemma remove_chinese_line_sublist (s : List Char) :
    List.Sublist (remove_chinese_line s) s :=
  ((clean_sublist_stages s).trans (removePunct_sublist _)).trans
    (List.filter_sublist s)

lemma clean_no_chinese (s : List Char) :
    (remove_chinese_line s).all (fun c => !isChineseChar c) = true := by
  refine all_of_sublist ((clean_sublist_stages s).trans (removePunct_sublist _)) ?_
  simp only [List.all_eq_true, removeChineseChars]
  exact fun x hx => (List.mem_filter.1 hx).2

lemma clean_no_punct (s : List Char) :
    ∀ x ∈ remove_chinese_line s, x ∉ chinese_punct := by
  intro x hx
  have hmem := (clean_sublist_stages s).subset hx
  exact ((punctFold_mem chinese_punct _ x).1 hmem).2 x |> fun f => by
    intro hc
    exact ((punctFold_mem chinese_punct _ x).1 hmem).2 x hc rfl

/-! Character-class facts. -/

lemma ws_toNat_le {c : Char} (h : isPySpace c = true) : c.toNat ≤ 0x3000 := by
  unfold isPySpace at h
  simp only [Bool.or_eq_true, Bool.and_eq_true, decide_eq_true_eq, Nat.beq_eq_true_eq] at h
  omega

lemma ws_not_chinese {c : Char} (h : isPySpace c = true) : isChineseChar c = false := by
  have hle := ws_toNat_le h
  unfold isChineseChar
  have h2 : ¬ (0x4e00 ≤ c.toNat) := by omega
  simp [h2]

lemma ws_not_punct {c : Char} (h : isPySpace c = true) :
    ∀ p ∈ chinese_punct, c ≠ p := by
  intro p hp hep
  subst hep
  simp only [chinese_punct, List.mem_cons, List.not_mem_nil, or_false] at hp
  rcases hp with rfl | rfl | rfl | rfl | rfl | rfl | rfl | rfl | rfl | rfl | rfl |
    rfl | rfl | rfl | rfl <;> exact absurd h (by decide)

/-! Prefix preservation through the Cleaner. -/

lemma head_ws_of_run {w1 z : List Char} {c : Char} (hne : w1 ≠ [])
    (hw : w1.all isPySpace = true) (hh : (w1 ++ z).head? = some c) :
    isPySpace c = true := by
  cases w1 with
  | nil => exact absurd rfl hne
  | cons a t =>
    simp only [List.cons_append, List.head?_cons, Option.some.injEq] at hh
    subst hh
    simp only [List.all_cons, Bool.and_eq_true] at hw
    exact hw.1

lemma append_keepTwo {a b : Char} {l out junk : List Char}
    (heq : a :: b :: l = out ++ junk)
    (hhead : ∀ c, junk.head? = some c → isPySpace c = true)
    (ha : isPySpace a = false) (hb : isPySpace b = false) :
    ∃ t, out = a :: b :: t := by
  match out, heq with
  | [], heq =>
    rw [List.nil_append] at heq
    have := hhead a (by rw [← heq]; rfl)
    rw [ha] at this
    cases this
  | [x], heq =>
    simp only [List.cons_append, List.nil_append, List.cons.injEq] at heq
    have := hhead b (by rw [← heq.2]; rfl)
    rw [hb] at this
    cases this
  | x :: y :: t, heq =>
    simp only [List.cons_append, List.cons.injEq] at heq
    exact ⟨t, by rw [heq.1, heq.2.1]⟩

lemma append_star_keep {w m out junk : List Char}
    (heq : w ++ '*' :: m = out ++ junk) (hstar : '*' ∉ junk) :
    ∃ t, out = w ++ '*' :: t := by
  rcases List.append_eq_append_iff.1 heq with ⟨a2, hc, hb⟩ | ⟨c2, _, hd⟩
  · cases a2 with
    | nil =>
      rw [List.nil_append] at hb
      exact absurd (hb ▸ List.mem_cons_self '*' m) hstar
    | cons x t =>
      simp only [List.cons_append, List.cons.injEq] at hb
      exact ⟨t, by rw [hc, hb.1]⟩
  · exact absurd (hd ▸ List.mem_append_right c2 (List.mem_cons_self '*' m)) hstar

lemma star_not_mem_junk {w1 w2 : List Char} {sep : Char} (hsep : sep ≠ '*')
    (hw1 : w1.all isPySpace = true) (hw2 : w2.all isPySpace = true) :
    '*' ∉ w1 ++ sep :: w2 := by
  intro hmem
  rcases List.mem_append.1 hmem with h | h
  · have := (List.all_eq_true.1 hw1) _ h
    exact absurd this (by decide)
  · rcases List.mem_cons.1 h with h | h
    · exact hsep h.symm
    · have := (List.all_eq_true.1 hw2) _ h
      exact absurd this (by decide)

lemma rstrip_keepOne {a : Char} (ha : isPySpace a = false) (u : List Char) :
    rstrip (a :: u) = a :: rstrip u := by
  unfold rstrip
  rw [List.reverse_cons, List.dropWhile_append]
  by_cases h : (u.reverse.dropWhile isPySpace).isEmpty
  · rw [if_pos h]
    rw [List.isEmpty_iff] at h
    rw [h]
    simp [List.dropWhile_cons, ha]
  · rw [if_neg h]
    rw [List.reverse_append]
    rw [List.isEmpty_iff] at h
    simp

/-! The Cleaner preserves a leading "//" marker: each stage either leaves the
first two characters alone or removes only trailing/inner material that
cannot touch two leading non-whitespace slashes. -/

lemma removeChineseChars_keepTwoSlash (r : List Char) :
    removeChineseChars ('/' :: '/' :: r) = '/' :: '/' :: removeChineseChars r := by
  unfold removeChineseChars
  rw [List.filter_cons_of_pos (by decide), List.filter_cons_of_pos (by decide)]

lemma removePunct_keepTwoSlash (u : List Char) :
    removePunct ('/' :: '/' :: u) = '/' :: '/' :: removePunct u := by
  unfold removePunct
  have h := punctFold_append_keep chinese_punct ['/', '/'] u (by decide)
  simpa using h

lemma stripSlashSep_keepTwoSlash (u : List Char) :
    ∃ t, stripSlashSep ('/' :: '/' :: u) = '/' :: '/' :: t := by
  rcases stripSlashSep_cases ('/' :: '/' :: u) with h | ⟨w1, w2, heq, hne, hw1, hw2⟩
  · exact ⟨u, h⟩
  · exact append_keepTwo heq (fun c hc => head_ws_of_run hne hw1 hc)
      (by decide) (by decide)

lemma stripDashSep_keepTwoSlash (u : List Char) :
    ∃ t, stripDashSep ('/' :: '/' :: u) = '/' :: '/' :: t := by
  rcases stripDashSep_cases ('/' :: '/' :: u) with h | ⟨w1, w2, heq, hne, hw1, hw2⟩
  · exact ⟨u, h⟩
  · exact append_keepTwo heq (fun c hc => head_ws_of_run hne hw1 hc)
      (by decide) (by decide)

lemma removeEmptyPairs_keepTwoSlash (o cl : Char) (ho : ('/' : Char) ≠ o)
    (u : List Char) :
    removeEmptyPairs o cl ('/' :: '/' :: u) = '/' :: '/' :: removeEmptyPairs o cl u := by
  unfold removeEmptyPairs
  have h := repGo_skip o cl u ['/', '/'] (by
    intro x hx
    rcases List.mem_cons.1 hx with rfl | hx2
    · exact ho
    · rcases List.mem_cons.1 hx2 with rfl | hx3
      · exact ho
      · cases hx3)
  simpa using h

lemma pyStrip_keepTwoSlash (u : List Char) :
    pyStrip ('/' :: '/' :: u) = '/' :: '/' :: rstrip u := by
  unfold pyStrip lstrip
  rw [List.dropWhile_cons_of_neg (by decide)]
  rw [rstrip_keepOne (by decide), rstrip_keepOne (by decide)]

lemma clean_keepTwoSlash (r : List Char) :
    ∃ t, remove_chinese_line ('/' :: '/' :: r) = '/' :: '/' :: t := by
  unfold remove_chinese_line
  rw [removeChineseChars_keepTwoSlash, removePunct_keepTwoSlash]
  obtain ⟨t3, h3⟩ := stripSlashSep_keepTwoSlash (removePunct (removeChineseChars r))
  rw [h3]
  obtain ⟨t4, h4⟩ := stripDashSep_keepTwoSlash t3
  rw [h4]
  rw [removeEmptyPairs_keepTwoSlash '(' ')' (by decide),
    removeEmptyPairs_keepTwoSlash '[' ']' (by decide),
    pyStrip_keepTwoSlash]
  exact ⟨rstrip (removeEmptyPairs '[' ']' (removeEmptyPairs '(' ')' t4)), rfl⟩

/-! The Cleaner turns a line whose first non-whitespace character is an
asterisk into a cleaned line that still starts with that asterisk. -/

lemma removeChineseChars_keepStar {w : List Char} (m : List Char)
    (hw : w.all isPySpace = true) :
    removeChineseChars (w ++ '*' :: m) = w ++ '*' :: removeChineseChars m := by
  unfold removeChineseChars
  rw [List.filter_append, List.filter_cons_of_pos (by decide)]
  rw [List.filter_eq_self.2 (fun a ha => by
    rw [ws_not_chinese ((List.all_eq_true.1 hw) a ha)]; rfl)]

lemma removePunct_keepStar {w : List Char} (u : List Char)
    (hw : w.all isPySpace = true) :
    removePunct (w ++ '*' :: u) = w ++ '*' :: removePunct u := by
  unfold removePunct
  have h := punctFold_append_keep chinese_punct (w ++ ['*']) u (by
    intro x hx p hp
    rcases List.mem_append.1 hx with hxw | hxs
    · exact ws_not_punct ((List.all_eq_true.1 hw) x hxw) p hp
    · rcases List.mem_cons.1 hxs with rfl | h0
      · exact (by decide : ∀ q ∈ chinese_punct, ('*' : Char) ≠ q) p hp
      · cases h0)
  rw [List.append_assoc] at h
  simpa using h

lemma stripSlashSep_keepStar {w : List Char} (u : List Char) :
    (∃ t, stripSlashSep (w ++ '*' :: u) = w ++ '*' :: t) := by
  rcases stripSlashSep_cases (w ++ '*' :: u) with h | ⟨w1, w2, heq, hne, hw1, hw2⟩
  · exact ⟨u, h⟩
  · exact append_star_keep heq (star_not_mem_junk (by decide) hw1 hw2)

lemma stripDashSep_keepStar {w : List Char} (u : List Char) :
    (∃ t, stripDashSep (w ++ '*' :: u) = w ++ '*' :: t) := by
  rcases stripDashSep_cases (w ++ '*' :: u) with h | ⟨w1, w2, heq, hne, hw1, hw2⟩
  · exact ⟨u, h⟩
  · exact append_star_keep heq (star_not_mem_junk (by decide) hw1 hw2)

lemma removeEmptyPairs_keepStar (o cl : Char) (ho : isPySpace o = false)
    (ho2 : ('*' : Char) ≠ o) {w : List Char} (u : List Char)
    (hw : w.all isPySpace = true) :
    removeEmptyPairs o cl (w ++ '*' :: u) = w ++ '*' :: removeEmptyPairs o cl u := by
  unfold removeEmptyPairs
  have h := repGo_skip o cl u (w ++ ['*']) (by
    intro x hx
    rcases List.mem_append.1 hx with hxw | hxs
    · intro he
      subst he
      rw [(List.all_eq_true.1 hw) x hxw] at ho
      cases ho
    · rcases List.mem_cons.1 hxs with rfl | h0
      · exact ho2
      · cases h0)
  rw [List.append_assoc] at h
  simpa using h

lemma pyStrip_keepStar {w : List Char} (u : List Char)
    (hw : w.all isPySpace = true) :
    pyStrip (w ++ '*' :: u) = '*' :: rstrip u := by
  unfold pyStrip lstrip
  rw [List.dropWhile_append_of_pos (List.all_eq_true.1 hw)]
  rw [List.dropWhile_cons_of_neg (by decide)]
  exact rstrip_keepOne (by decide) u

lemma clean_keepStar {w : List Char} (m : List Char)
    (hw : w.all isPySpace = true) :
    ∃ t, remove_chinese_line (w ++ '*' :: m) = '*' :: t := by
  unfold remove_chinese_line
  rw [removeChineseChars_keepStar m hw, removePunct_keepStar _ hw]
  obtain ⟨t3, h3⟩ := stripSlashSep_keepStar (w := w) (removePunct (removeChineseChars m))
  rw [h3]
  obtain ⟨t4, h4⟩ := stripDashSep_keepStar (w := w) t3
  rw [h4]
  rw [removeEmptyPairs_keepStar '(' ')' (by decide) (by decide) t4 hw,
    removeEmptyPairs_keepStar '[' ']' (by decide) (by decide) _ hw,
    pyStrip_keepStar _ hw]
  exact ⟨rstrip (removeEmptyPairs '[' ']' (removeEmptyPairs '(' ')' t4)), rfl⟩

/-- A line whose stripped form starts with an asterisk is whitespace, then
the asterisk, then anything. -/
lemma strip_star_decomp {l : List Char} (h : (pyStrip l).head? = some '*') :
    ∃ w m, l = w ++ '*' :: m ∧ w.all isPySpace = true := by
  have h1 : (lstrip l).head? = some '*' := head?_of_rstrip h
  cases hl : lstrip l with
  | nil => rw [hl] at h1; cases h1
  | cons a t =>
    rw [hl] at h1
    simp only [List.head?_cons, Option.some.injEq] at h1
    subst h1
    refine ⟨l.takeWhile isPySpace, t, ?_, List.all_takeWhile⟩
    conv_lhs => rw [lstrip_decomp l]
    rw [hl]

/-! Stage-identity facts on already-cleaned lines (for idempotence). -/

lemma clean_step1_id (s : List Char) :
    removeChineseChars (remove_chinese_line s) = remove_chinese_line s := by
  unfold removeChineseChars
  exact List.filter_eq_self.2 (fun a ha => (List.all_eq_true.1 (clean_no_chinese s)) a ha)

lemma clean_step2_id (s : List Char) :
    removePunct (remove_chinese_line s) = remove_chinese_line s := by
  unfold removePunct
  exact punctFold_eq_self chinese_punct _
    (fun x hx p hp he => clean_no_punct s x hx (he ▸ hp))

lemma clean_rstripped (s : List Char) :
    (remove_chinese_line s).reverse.takeWhile isPySpace = [] := by
  unfold remove_chinese_line pyStrip rstrip
  rw [List.reverse_reverse]
  exact takeWhile_of_dropWhile_nil isPySpace _

lemma stripDashSep_id_of_rstripped {t : List Char}
    (h : t.reverse.takeWhile isPySpace = []) : stripDashSep t = t := by
  unfold stripDashSep
  rw [if_pos (by rw [h]; rfl)]

lemma clean_pyStrip_id (s : List Char) :
    pyStrip (remove_chinese_line s) = remove_chinese_line s := by
  unfold remove_chinese_line
  exact pyStrip_pyStrip _

lemma clean_idem_of_fixes (l : List Char)
    (h3 : stripSlashSep (remove_chinese_line l) = remove_chinese_line l)
    (h5 : removeEmptyPairs '(' ')' (remove_chinese_line l) = remove_chinese_line l)
    (h6 : removeEmptyPairs '[' ']' (remove_chinese_line l) = remove_chinese_line l) :
    remove_chinese_line (remove_chinese_line l) = remove_chinese_line l := by
  show pyStrip (removeEmptyPairs '[' ']' (removeEmptyPairs '(' ')'
    (stripDashSep (stripSlashSep (removePunct (removeChineseChars
      (remove_chinese_line l))))))) = remove_chinese_line l
  rw [clean_step1_id, clean_step2_id, h3,
    stripDashSep_id_of_rstripped (clean_rstripped l), h5, h6, clean_pyStrip_id]

/-! Markdown-processor lemmas. -/

lemma phase1Skip_eq (ls : List (List Char)) : phase1Skip false ls = phase1 ls := by
  induction ls with
  | nil => rfl
  | cons l rest ih =>
    simp only [phase1Skip, phase1]
    rw [ih]

lemma phase1_append (xs ys : List (List Char)) :
    phase1 (xs ++ ys) = phase1 xs ++ phase1 ys := by
  induction xs with
  | nil => rfl
  | cons l rest ih =>
    simp only [List.cons_append, phase1]
    rw [show rest.append ys = rest ++ ys from rfl, ih, List.append_assoc]

lemma classifyLine_drop {l : List Char} (hc : has_chinese l = true)
    (hl : hasLatin l = false) : classifyLine l = [] := by
  unfold classifyLine
  rw [if_pos (by rw [hc, hl]; rfl)]

/-- No two neighbouring lines are both blank. -/
def noTwoAdjacentBlanks : List (List Char) → Bool
  | [] => true
  | [_] => true
  | a :: b :: t => !(isEmptyLine a && isEmptyLine b) && noTwoAdjacentBlanks (b :: t)

lemma noTwoAdj_cons {a : List Char} {xs : List (List Char)} :
    noTwoAdjacentBlanks (a :: xs) = true ↔
      noTwoAdjacentBlanks xs = true ∧
        ∀ h, xs.head? = some h → (!(isEmptyLine a && isEmptyLine h)) = true := by
  cases xs with
  | nil => simp [noTwoAdjacentBlanks]
  | cons b t =>
    show (!(isEmptyLine a && isEmptyLine b) && noTwoAdjacentBlanks (b :: t)) = true ↔ _
    rw [Bool.and_eq_true]
    constructor
    · rintro ⟨h1, h2⟩
      refine ⟨h2, fun h hh => ?_⟩
      rw [List.head?_cons, Option.some.injEq] at hh
      subst hh
      exact h1
    · rintro ⟨h1, h2⟩
      exact ⟨h2 b rfl, h1⟩

lemma collapseGo_absorb (rest : List (List Char)) :
    ∀ bs : List (List Char), (∀ x ∈ bs, isEmptyLine x = true) →
      collapseGo true (bs ++ rest) = collapseGo true rest := by
  intro bs
  induction bs with
  | nil => intro _; rfl
  | cons b t ih =>
    intro h
    simp only [List.cons_append, collapseGo]
    rw [if_pos (by rw [h b (List.mem_cons_self b t)]; rfl)]
    exact ih (fun x hx => h x (List.mem_cons_of_mem b hx))

lemma collapseGo_insert (pre : List (List Char)) :
    ∀ (flag : Bool) (b : List Char) (bs post : List (List Char)),
      isEmptyLine b = true → (∀ x ∈ bs, isEmptyLine x = true) →
      collapseGo flag (pre ++ b :: (bs ++ post)) = collapseGo flag (pre ++ b :: post) := by
  induction pre with
  | nil =>
    intro flag b bs post hb hbs
    simp only [List.nil_append, collapseGo]
    by_cases hf : (isEmptyLine b && flag) = true
    · rw [if_pos hf, if_pos hf]
      have hfl : flag = true := by
        cases hfl2 : flag with
        | true => rfl
        | false => rw [hfl2, Bool.and_false] at hf; cases hf
      subst hfl
      exact collapseGo_absorb post bs hbs
    · rw [if_neg hf, if_neg hf, hb]
      rw [collapseGo_absorb post bs hbs]
  | cons p pre ih =>
    intro flag b bs post hb hbs
    simp only [List.cons_append, collapseGo]
    by_cases hf : (isEmptyLine p && flag) = true
    · rw [if_pos hf, if_pos hf]
      exact ih flag b bs post hb hbs
    · rw [if_neg hf, if_neg hf]
      exact congrArg (p :: ·) (ih (isEmptyLine p) b bs post hb hbs)

lemma collapseGo_noAdj (ls : List (List Char)) :
    ∀ flag : Bool,
      noTwoAdjacentBlanks (collapseGo flag ls) = true ∧
        (flag = true → ∀ h, (collapseGo flag ls).head? = some h →
          isEmptyLine h = false) := by
  induction ls with
  | nil =>
    intro flag
    exact ⟨rfl, fun _ h hh => by cases hh⟩
  | cons l rest ih =>
    intro flag
    by_cases hf : (isEmptyLine l && flag) = true
    · simp only [collapseGo, if_pos hf]
      exact ih flag
    · simp only [collapseGo, if_neg hf]
      constructor
      · rw [noTwoAdj_cons]
        refine ⟨(ih (isEmptyLine l)).1, ?_⟩
        intro h hh
        cases hbl : isEmptyLine l with
        | false => simp [hbl]
        | true =>
          have hh2 := (ih (isEmptyLine l)).2 hbl h hh
          simp [hh2]
      · intro hfl h hh
        rw [List.head?_cons, Option.some.injEq] at hh
        subst hh
        subst hfl
        cases hbl : isEmptyLine l with
        | false => rfl
        | true => exact absurd (by simp [hbl]) hf

lemma collapseGo_preserve (ls : List (List Char)) :
    ∀ flag : Bool, noTwoAdjacentBlanks ls = true →
      (flag = true → ∀ h, ls.head? = some h → isEmptyLine h = false) →
      collapseGo flag ls = ls := by
  induction ls with
  | nil => intro flag _ _; rfl
  | cons l rest ih =>
    intro flag hadj hhd
    have hnb : (isEmptyLine l && flag) = false := by
      cases flag with
      | false => simp
      | true =>
        rw [hhd rfl l rfl]
        rfl
    rw [collapseGo, if_neg (by rw [hnb]; exact Bool.false_ne_true)]
    congr 1
    refine ih (isEmptyLine l) (noTwoAdj_cons.1 hadj).1 ?_
    intro hbl h hh
    have h2 := (noTwoAdj_cons.1 hadj).2 h hh
    rw [hbl] at h2
    simpa using h2

lemma collapseGo_sublist (ls : List (List Char)) :
    ∀ flag, List.Sublist (collapseGo flag ls) ls := by
  induction ls with
  | nil => intro _; exact List.Sublist.refl []
  | cons l rest ih =>
    intro flag
    by_cases hf : (isEmptyLine l && flag) = true
    · rw [collapseGo, if_pos hf]
      exact (ih flag).trans (List.sublist_cons_self l rest)
    · rw [collapseGo, if_neg hf]
      exact (ih (isEmptyLine l)).cons₂ l

/-! Order-preserving embedding of the markdown output into the input. -/

lemma classifyLine_shape (l : List Char) :
    classifyLine l = [] ∨
      ∃ out, classifyLine l = [out] ∧ List.Sublist out (l ++ ['\n']) := by
  unfold classifyLine
  by_cases h1 : (has_chinese l && !hasLatin l) = true
  · rw [if_pos h1]
    exact Or.inl rfl
  · rw [if_neg h1]
    by_cases h2 : has_chinese l = true
    · rw [if_pos h2]
      show (if !(remove_chinese_line l).isEmpty && !pyIsSpaceStr (remove_chinese_line l)
        then [remove_chinese_line l ++ ['\n']] else []) = [] ∨ _
      by_cases h3 : (!(remove_chinese_line l).isEmpty &&
          !pyIsSpaceStr (remove_chinese_line l)) = true
      · rw [if_pos h3]
        exact Or.inr ⟨_, rfl,
          List.Sublist.append (remove_chinese_line_sublist l) (List.Sublist.refl _)⟩
      · rw [if_neg h3]
        exact Or.inl rfl
    · rw [if_neg h2]
      exact Or.inr ⟨l, rfl, List.sublist_append_left l ['\n']⟩

lemma phase1_embed (ls : List (List Char)) :
    ∃ sel, List.Sublist sel ls ∧
      List.Forall₂ (fun out inp => List.Sublist out (inp ++ ['\n'])) (phase1 ls) sel := by
  induction ls with
  | nil => exact ⟨[], List.Sublist.refl [], List.Forall₂.nil⟩
  | cons l rest ih =>
    obtain ⟨sel, hsub, hf⟩ := ih
    rcases classifyLine_shape l with h | ⟨out, h, hout⟩
    · refine ⟨sel, hsub.trans (List.sublist_cons_self l rest), ?_⟩
      simp only [phase1, h, List.nil_append]
      exact hf
    · refine ⟨l :: sel, hsub.cons₂ l, ?_⟩
      simp only [phase1, h, List.cons_append, List.nil_append]
      exact List.Forall₂.cons hout hf

lemma forall₂_sublist_transfer {R : List Char → List Char → Prop}
    {out out2 sel : List (List Char)}
    (hsub : List.Sublist out2 out) (hf : List.Forall₂ R out sel) :
    ∃ sel2, List.Sublist sel2 sel ∧ List.Forall₂ R out2 sel2 := by
  induction hsub generalizing sel with
  | slnil =>
    cases hf
    exact ⟨[], List.Sublist.refl [], List.Forall₂.nil⟩
  | cons a h ih =>
    cases hf with
    | cons hR hf2 =>
      obtain ⟨sel2, hs, hf3⟩ := ih hf2
      exact ⟨sel2, hs.trans (List.sublist_cons_self _ _), hf3⟩
  | cons₂ a h ih =>
    cases hf with
    | cons hR hf2 =>
      obtain ⟨sel2, hs, hf3⟩ := ih hf2
      exact ⟨_ :: sel2, hs.cons₂ _, List.Forall₂.cons hR hf3⟩

/-! Structural lemmas for the code-file passes. -/

lemma splitLines_no_newline {s : List Char} (h : '\n' ∉ s) : splitLines s = [s] := by
  induction s with
  | nil => rfl
  | cons c rest ih =>
    have hc : c ≠ '\n' := fun he => h (he ▸ List.mem_cons_self c rest)
    have hr : '\n' ∉ rest := fun hm => h (List.mem_cons_of_mem c hm)
    simp only [splitLines, ih hr]
    rw [if_neg hc]

lemma splitFirst2_eq {a b : Char} :
    ∀ {s p q : List Char}, splitFirst2 a b s = some (p, q) → s = p ++ a :: b :: q := by
  intro s
  induction s with
  | nil => intro p q h; cases h
  | cons x rest ih =>
    intro p q h
    simp only [splitFirst2] at h
    by_cases hc : (x = a ∧ rest.head? = some b)
    · rw [if_pos hc] at h
      obtain ⟨hx, hh⟩ := hc
      subst hx
      cases rest with
      | nil => cases hh
      | cons y t =>
        rw [List.head?_cons, Option.some.injEq] at hh
        subst hh
        simp only [Option.some.injEq, Prod.mk.injEq] at h
        obtain ⟨hp, hq⟩ := h
        subst hp
        subst hq
        rfl
    · rw [if_neg hc] at h
      cases hsf : splitFirst2 a b rest with
      | none => rw [hsf] at h; cases h
      | some pr =>
        obtain ⟨p2, q2⟩ := pr
        rw [hsf] at h
        simp only [Option.map_some', Option.some.injEq, Prod.mk.injEq] at h
        obtain ⟨hp, hq⟩ := h
        subst hq
        rw [← hp]
        rw [List.cons_append]
        rw [ih hsf]

lemma outsideBlock_frame (fuel : Nat) :
    ∀ s : List Char,
      List.Sublist (outsideBlockFuel fuel s) (blockPassFuel fuel s) := by
  induction fuel with
  | zero => intro s; exact List.Sublist.refl s
  | succ f ih =>
    intro s
    cases h1 : splitFirst2 '/' '*' s with
    | none =>
      simp only [outsideBlockFuel, blockPassFuel, h1]
      exact List.Sublist.refl s
    | some pr =>
      obtain ⟨bef, rest⟩ := pr
      cases h2 : splitFirst2 '*' '/' rest with
      | none =>
        simp only [outsideBlockFuel, blockPassFuel, h1, h2]
        exact List.Sublist.refl s
      | some pr2 =>
        obtain ⟨inner, after⟩ := pr2
        simp only [outsideBlockFuel, blockPassFuel, h1, h2]
        rw [List.append_assoc]
        exact List.Sublist.append_left
          ((ih after).trans (List.sublist_append_right _ _)) bef

lemma joinLines_pointwise {f g : List Char → List Char}
    (hfg : ∀ l, List.Sublist (f l) (g l)) :
    ∀ ls : List (List Char),
      List.Sublist (joinLines (ls.map f)) (joinLines (ls.map g)) := by
  intro ls
  induction ls with
  | nil => exact List.Sublist.refl []
  | cons l rest ih =>
    cases rest with
    | nil => exact hfg l
    | cons r2 t =>
      show List.Sublist (f l ++ '\n' :: joinLines ((r2 :: t).map f))
        (g l ++ '\n' :: joinLines ((r2 :: t).map g))
      exact List.Sublist.append (hfg l) (List.Sublist.cons₂ '\n' ih)

lemma outsideLine_frame (c : List Char) :
    List.Sublist (outsideLine c) (lineCommentPass c) := by
  unfold outsideLine lineCommentPass
  apply joinLines_pointwise
  intro l
  unfold lineStep
  cases h : findLineComment l with
  | none => exact List.Sublist.refl l
  | some pr =>
    obtain ⟨b, m⟩ := pr
    simp only
    exact List.sublist_append_left b _

lemma replace_multiline_id_of_marker {m : List Char} (hnl : '\n' ∉ m)
    (hm : hasPair '/' '*' m = true) : replace_multiline_comment m = m := by
  unfold replace_multiline_comment
  by_cases hc : has_chinese m = true
  · rw [if_pos hc, splitLines_no_newline hnl]
    have hbl : blockLine m = some m := by
      unfold blockLine
      rw [if_pos (by rw [hm]; rfl)]
    rw [List.filterMap_cons_some hbl]
    rfl
  · rw [if_neg hc]

/-! Claim theorems. -/

/-- C1, counterexample: at the line-comment match "//中" the code produces
"////" — the marker plus the Cleaner applied to the whole match (whose own
"//" survives cleaning) — while the claim predicts the bare marker "//",
because the cleaned remainder after the marker is empty. -/
theorem C1_counterexample :
    replace_comment ['/', '/', '中'] = ['/', '/', '/', '/'] ∧
      remove_chinese_line (['/', '/', '中'].drop 2) = [] ∧
      replace_comment ['/', '/', '中'] ≠
        '/' :: '/' :: remove_chinese_line (['/', '/', '中'].drop 2) := by
  decide

/-- C1, amended: for every line-comment match (every match starts with the
"//" marker) that contains a target-script character, the replacement is the
marker followed by the Cleaner's output on the WHOLE matched text, marker
included; the Cleaner keeps the leading "//", so the replacement begins with
a doubled marker and the bare-marker fallback never fires. -/
theorem C1_line_comment_replacement (m r : List Char)
    (hm : m = '/' :: '/' :: r) (hc : has_chinese m = true) :
    replace_comment m = '/' :: '/' :: remove_chinese_line m ∧
      ∃ t, remove_chinese_line m = '/' :: '/' :: t := by
  subst hm
  obtain ⟨t, ht⟩ := clean_keepTwoSlash r
  refine ⟨?_, t, ht⟩
  unfold replace_comment
  rw [if_pos hc]
  show (if (remove_chinese_line ('/' :: '/' :: r)).isEmpty then ['/', '/']
    else '/' :: '/' :: remove_chinese_line ('/' :: '/' :: r)) = _
  rw [ht]
  rfl

/-- Witness for C1_line_comment_replacement at the concrete match "//中a". -/
theorem C1_line_comment_replacement_witness :
    replace_comment ['/', '/', '中', 'a'] =
        '/' :: '/' :: remove_chinese_line ['/', '/', '中', 'a'] ∧
      ∃ t, remove_chinese_line ['/', '/', '中', 'a'] = '/' :: '/' :: t :=
  C1_line_comment_replacement ['/', '/', '中', 'a'] ['中', 'a'] rfl (by decide)

/-- C2, counterexample: the single-line block comment of the spec's own
scenario, "/\x2a 说明 The spec \x2a/", is passed through the code processor
unchanged — its only line contains both markers, so it is preserved verbatim
and the target-script characters are NOT removed. -/
theorem C2_counterexample :
    process_code_file
        ['/', '*', ' ', '说', '明', ' ', 'T', 'h', 'e', ' ', 's', 'p', 'e',
         'c', ' ', '*', '/'] =
      ['/', '*', ' ', '说', '明', ' ', 'T', 'h', 'e', ' ', 's', 'p', 'e',
       'c', ' ', '*', '/'] ∧
      has_chinese (process_code_file
        ['/', '*', ' ', '说', '明', ' ', 'T', 'h', 'e', ' ', 's', 'p', 'e',
         'c', ' ', '*', '/']) = true := by
  decide

/-- C2, amended: a block-comment match that lies on a single line (no newline
in the matched span, which starts with the open marker) is returned verbatim
by replace_multiline_comment — its one line contains the open marker, so the
marker-line rule preserves it, target-script characters included. -/
theorem C2_single_line_block (m : List Char) (hnl : '\n' ∉ m)
    (hm : hasPair '/' '*' m = true) :
    replace_multiline_comment m = m :=
  replace_multiline_id_of_marker hnl hm

/-- Witness for C2_single_line_block at the concrete span "/\x2a 说明 x \x2a/". -/
theorem C2_single_line_block_witness :
    replace_multiline_comment ['/', '*', ' ', '说', '明', ' ', 'x', ' ', '*', '/'] =
      ['/', '*', ' ', '说', '明', ' ', 'x', ' ', '*', '/'] :=
  C2_single_line_block ['/', '*', ' ', '说', '明', ' ', 'x', ' ', '*', '/']
    (by decide) (by decide)

/-- C3: for every input line, the Cleaner's output contains no character of
the CJK Unified Ideographs range and no mark of the fixed target-script
punctuation list chinese_punct. -/
theorem C3_cleaner_output_scriptfree (l : List Char) :
    (remove_chinese_line l).all
      (fun c => !isChineseChar c && !(chinese_punct.contains c)) = true := by
  rw [List.all_eq_true]
  intro x hx
  have h1 := List.all_eq_true.1 (clean_no_chinese l) x hx
  have h2 : chinese_punct.contains x = false := by
    cases hc : chinese_punct.contains x
    · rfl
    · exact absurd (List.elem_iff.1 hc) (clean_no_punct l x hx)
  show (!isChineseChar x && !(chinese_punct.contains x)) = true
  rw [Bool.and_eq_true]
  exact ⟨h1, by rw [h2]; rfl⟩

/-- The concrete code-file input of the C4 counterexample:
"// a /中\x2a b", a line of code with a CJK character, then "\x2a/". -/
def c4Input : List Char :=
  ['/', '/', ' ', 'a', ' ', '/', '中', '*', ' ', 'b', '\n',
   'c', 'o', 'd', 'e', ' ', '中', ' ', 'x', '\n', '*', '/', '\n']

/-- C4, counterexample: c4Input contains no block-open marker at all, so its
comment regions are exactly the line-comment matches and the claim asserts
that outsideLine c4Input (the characters outside them) survives in order into
the output.  It does not: cleaning the line comment deletes the CJK character
between '/' and '\x2a', fabricating a block-open marker, and the block pass of
the second stage then deletes the CJK character of the code line — a
character lying outside every comment region of the input. -/
theorem C4_counterexample :
    hasPair '/' '*' c4Input = false ∧
      '中' ∈ outsideLine c4Input ∧
      '中' ∉ process_code_file c4Input ∧
      ¬ List.Sublist (outsideLine c4Input) (process_code_file c4Input) := by
  refine ⟨by decide, by decide, by decide, ?_⟩
  intro h
  exact absurd (h.subset (by decide : '中' ∈ outsideLine c4Input))
    (by decide : '中' ∉ process_code_file c4Input)

/-- C4, amended: the frame property holds per pass.  Every character outside
the line-comment matches of the input appears unchanged and in order in the
intermediate content (after the line-comment pass), and every character of
the intermediate content outside its block-comment matches appears unchanged
and in order in the final output. -/
theorem C4_comment_frame (c : List Char) :
    List.Sublist (outsideLine c) (lineCommentPass c) ∧
      List.Sublist
        (outsideBlockFuel (lineCommentPass c).length (lineCommentPass c))
        (process_code_file c) :=
  ⟨outsideLine_frame c, outsideBlock_frame (lineCommentPass c).length (lineCommentPass c)⟩

/-- C5: a line with a target-script character and no Latin letter is dropped
entirely by the markdown processor: processing the file with the line gives
exactly the result of processing the file without it. -/
theorem C5_pure_chinese_line_dropped (l : List Char) (pre post : List (List Char))
    (hc : has_chinese l = true) (hl : hasLatin l = false) :
    process_markdown_file (pre ++ l :: post) = process_markdown_file (pre ++ post) := by
  unfold process_markdown_file collapseBlanks
  rw [phase1Skip_eq, phase1Skip_eq]
  have h1 : phase1 [l] = [] := by
    show classifyLine l ++ phase1 [] = []
    rw [classifyLine_drop hc hl]
    rfl
  rw [show pre ++ l :: post = (pre ++ [l]) ++ post by simp,
    phase1_append, phase1_append, h1, List.append_nil, ← phase1_append]

/-- Witness for C5_pure_chinese_line_dropped on a two-line file whose second
line is pure target-script. -/
theorem C5_pure_chinese_line_dropped_witness :
    process_markdown_file [['a', '\n'], ['中', '\n']] =
      process_markdown_file [['a', '\n']] :=
  C5_pure_chinese_line_dropped ['中', '\n'] [['a', '\n']] [] (by decide) (by decide)

/-- C6: the blank-line collapse (i) never leaves two adjacent blank lines in
its output, (ii) maps a run of one-plus-N consecutive blank lines to the same
output as the run's first blank line alone (so a run of N ≥ 2 blanks leaves
exactly the one blank that survives at that position), and (iii) leaves any
sequence without adjacent blank lines unchanged (non-consecutive blank lines
are each preserved). -/
theorem C6_blank_line_collapse (ls pre post : List (List Char)) (b : List Char)
    (bs : List (List Char)) :
    noTwoAdjacentBlanks (collapseBlanks ls) = true ∧
      (isEmptyLine b = true → (∀ x ∈ bs, isEmptyLine x = true) →
        collapseBlanks (pre ++ b :: (bs ++ post)) = collapseBlanks (pre ++ b :: post)) ∧
      (noTwoAdjacentBlanks ls = true → collapseBlanks ls = ls) := by
  refine ⟨(collapseGo_noAdj ls false).1, ?_, ?_⟩
  · intro hb hbs
    exact collapseGo_insert pre false b bs post hb hbs
  · intro h
    exact collapseGo_preserve ls false h (fun hf => by cases hf)

/-- Witness for C6_blank_line_collapse: a run of three blanks collapses to
the single blank of the corresponding one-blank file, whose collapse is a
fixpoint without adjacent blanks. -/
theorem C6_blank_line_collapse_witness :
    noTwoAdjacentBlanks
        (collapseBlanks [['a', '\n'], ['\n'], ['b', '\n']]) = true ∧
      collapseBlanks [['a', '\n'], ['\n'], ['\n'], ['\n'], ['b', '\n']] =
        collapseBlanks [['a', '\n'], ['\n'], ['b', '\n']] ∧
      collapseBlanks [['a', '\n'], ['\n'], ['b', '\n']] =
        [['a', '\n'], ['\n'], ['b', '\n']] := by
  have h := C6_blank_line_collapse [['a', '\n'], ['\n'], ['b', '\n']]
    [['a', '\n']] [['b', '\n']] ['\n'] [['\n'], ['\n']]
  exact ⟨h.1, h.2.1 (by decide) (by decide), h.2.2 (by decide)⟩

/-- C7, counterexample: the Cleaner is not idempotent.  On "(())" the
empty-pair removal consumes the inner pair and does not rescan, leaving
"()"; cleaning "()" again yields "". -/
theorem C7_counterexample :
    remove_chinese_line (remove_chinese_line ['(', '(', ')', ')']) ≠
      remove_chinese_line ['(', '(', ')', ')'] := by
  decide

/-- C7, amended: the Cleaner is idempotent on every line whose cleaned output
is left unchanged by the trailing-slash-separator rule and by the two
empty-pair rules (the three rules that can still apply to a cleaned line);
all remaining stages — CJK removal, punctuation removal, the trailing-dash
rule, and strip — are always the identity on cleaned output. -/
theorem C7_cleaner_idempotent_on_stable (l : List Char)
    (h3 : stripSlashSep (remove_chinese_line l) = remove_chinese_line l)
    (h5 : removeEmptyPairs '(' ')' (remove_chinese_line l) = remove_chinese_line l)
    (h6 : removeEmptyPairs '[' ']' (remove_chinese_line l) = remove_chinese_line l) :
    remove_chinese_line (remove_chinese_line l) = remove_chinese_line l :=
  clean_idem_of_fixes l h3 h5 h6

/-- Witness for C7_cleaner_idempotent_on_stable at "Hello 世界 world". -/
theorem C7_cleaner_idempotent_on_stable_witness :
    remove_chinese_line (remove_chinese_line
        ['H', 'e', 'l', 'l', 'o', ' ', '世', '界', ' ', 'w', 'o', 'r', 'l', 'd']) =
      remove_chinese_line
        ['H', 'e', 'l', 'l', 'o', ' ', '世', '界', ' ', 'w', 'o', 'r', 'l', 'd'] :=
  C7_cleaner_idempotent_on_stable
    ['H', 'e', 'l', 'l', 'o', ' ', '世', '界', ' ', 'w', 'o', 'r', 'l', 'd']
    (by decide) (by decide) (by decide)

/-- C8, counterexample: on the interior line " \x2a 中a" the rewritten line is
a single space followed by the Cleaner's output "\x2a a" — the asterisk is
NOT dropped: it is still present (as the first character of the cleaned
text), contradicting the claim that the leading asterisk is dropped from the
result. -/
theorem C8_counterexample :
    blockLine [' ', '*', ' ', '中', 'a'] = some [' ', '*', ' ', 'a'] ∧
      '*' ∈ [' ', '*', ' ', 'a'] := by
  decide

/-- C8, amended: for an interior block-comment line with target-script
content, no markers, and a leading asterisk after trimming, the rewritten
line is a single leading space followed by the Cleaner's output — and that
output itself starts with the asterisk, so the asterisk is preserved (with
its indentation reduced to one space), not dropped. -/
theorem C8_continuation_star_kept (l : List Char)
    (hm1 : hasPair '/' '*' l = false) (hm2 : hasPair '*' '/' l = false)
    (hc : has_chinese l = true) (hstar : (pyStrip l).head? = some '*') :
    blockLine l = some (' ' :: remove_chinese_line l) ∧
      (remove_chinese_line l).head? = some '*' := by
  obtain ⟨w, m, hlw, hw⟩ := strip_star_decomp hstar
  have hcl : ∃ t, remove_chinese_line l = '*' :: t := by
    rw [hlw]
    exact clean_keepStar m hw
  obtain ⟨t, ht⟩ := hcl
  constructor
  · unfold blockLine
    rw [if_neg (by rw [hm1, hm2]; simp)]
    rw [if_pos hc]
    show (if (remove_chinese_line l).isEmpty then none
      else if (pyStrip l).head? = some '*' then some (' ' :: remove_chinese_line l)
      else some (remove_chinese_line l)) = some (' ' :: remove_chinese_line l)
    rw [ht]
    rw [if_neg (by simp), if_pos hstar]
  · rw [ht]
    rfl

/-- Witness for C8_continuation_star_kept at " \x2a 中b". -/
theorem C8_continuation_star_kept_witness :
    blockLine [' ', '*', ' ', '中', 'b'] =
        some (' ' :: remove_chinese_line [' ', '*', ' ', '中', 'b']) ∧
      (remove_chinese_line [' ', '*', ' ', '中', 'b']).head? = some '*' :=
  C8_continuation_star_kept [' ', '*', ' ', '中', 'b']
    (by decide) (by decide) (by decide) (by decide)

/-- C9: the markdown processor never reorders lines: its output lines match,
in order, a subsequence of the input lines, and each output line is obtained
from its input line by deleting characters (modulo the newline terminator the
processor re-appends to cleaned lines). -/
theorem C9_no_reordering (ls : List (List Char)) :
    ∃ sel, List.Sublist sel ls ∧
      List.Forall₂ (fun out inp => List.Sublist out (inp ++ ['\n']))
        (process_markdown_file ls) sel := by
  obtain ⟨sel, hsub, hf⟩ := phase1_embed ls
  have hcoll : List.Sublist (process_markdown_file ls) (phase1 ls) := by
    unfold process_markdown_file collapseBlanks
    rw [phase1Skip_eq]
    exact collapseGo_sublist (phase1 ls) false
  obtain ⟨sel2, hs2, hf2⟩ := forall₂_sublist_transfer hcoll hf
  exact ⟨sel2, hs2.trans hsub, hf2⟩

/-- C10: the skip_next flag of the markdown classification loop is never set,
so the loop equals the same loop with the skip mechanism removed, and the
whole processor factors through the skip-free loop. -/
theorem C10_skip_flag_unreachable (ls : List (List Char)) :
    phase1Skip false ls = phase1 ls ∧
      process_markdown_file ls = collapseBlanks (phase1 ls) := by
  refine ⟨phase1Skip_eq ls, ?_⟩
  unfold process_markdown_file
  rw [phase1Skip_eq]

end StripChinese
